import Mathlib

/-!
Verification development for `s3-sync-changes.py`, a tool that syncs a local
file tree to an S3 bucket, uploading only files whose content fingerprint
(ETag) differs from the remote one.

File contents are modelled as `List Nat` (byte values); paths that cannot be
read are modelled as `none`. The MD5 algorithm (Python's `hashlib.md5`) is
embedded concretely below, operating on byte lists with 32-bit arithmetic
carried out on `Nat` modulo `2 ^ 32`.
-/

/-- 32-bit truncating addition. -/
def add32 (a b : Nat) : Nat := (a + b) % 4294967296

/-- 32-bit complement (on values below `2 ^ 32`). -/
def not32 (a : Nat) : Nat := Nat.xor a 4294967295

/-- Left rotation of a 32-bit value by `s` places (`s ≤ 32`). -/
def rotl32 (a s : Nat) : Nat :=
  Nat.lor ((a <<< s) % 4294967296) (a >>> (32 - s))

/-- MD5 round constants `K[i] = floor(2^32 * |sin(i+1)|)`. -/
def md5K : List Nat :=
  [3614090360, 3905402710, 606105819, 3250441966, 4118548399, 1200080426,
   2821735955, 4249261313, 1770035416, 2336552879, 4294925233, 2304563134,
   1804603682, 4254626195, 2792965006, 1236535329, 4129170786, 3225465664,
   643717713, 3921069994, 3593408605, 38016083, 3634488961, 3889429448,
   568446438, 3275163606, 4107603335, 1163531501, 2850285829, 4243563512,
   1735328473, 2368359562, 4294588738, 2272392833, 1839030562, 4259657740,
   2763975236, 1272893353, 4139469664, 3200236656, 681279174, 3936430074,
   3572445317, 76029189, 3654602809, 3873151461, 530742520, 3299628645,
   4096336452, 1126891415, 2878612391, 4237533241, 1700485571, 2399980690,
   4293915773, 2240044497, 1873313359, 4264355552, 2734768916, 1309151649,
   4149444226, 3174756917, 718787259, 3951481745]

/-- MD5 per-round left-rotation amounts. -/
def md5S : List Nat :=
  [7, 12, 17, 22, 7, 12, 17, 22, 7, 12, 17, 22, 7, 12, 17, 22,
   5, 9, 14, 20, 5, 9, 14, 20, 5, 9, 14, 20, 5, 9, 14, 20,
   4, 11, 16, 23, 4, 11, 16, 23, 4, 11, 16, 23, 4, 11, 16, 23,
   6, 10, 15, 21, 6, 10, 15, 21, 6, 10, 15, 21, 6, 10, 15, 21]

/-- Split off the first `n` elements: `chunkSplit n cs = (cs.take n, cs.drop n)`,
written by structural recursion on the list so that it evaluates by kernel
reduction even for large `n`. -/
def chunkSplit {α : Type} (n : Nat) : List α → List α × List α
  | [] => ([], [])
  | c :: cs =>
    if n = 0 then ([], c :: cs)
    else
      let p := chunkSplit (n - 1) cs
      (c :: p.1, p.2)

/-- Chunking loop with explicit fuel (one unit per produced chunk; the list
length is always enough fuel when `k ≠ 0`). -/
def chunksOfAux {α : Type} (k : Nat) : Nat → List α → List (List α)
  | _, [] => []
  | 0, _ :: _ => []
  | fuel + 1, c :: cs =>
    let p := chunkSplit k (c :: cs)
    p.1 :: chunksOfAux k fuel p.2

/-- Split a list into consecutive chunks of `k` elements (last chunk may be
shorter). With `k = 0` no chunk is produced, matching Python's
`f.read(0) = b""` which terminates the read loop immediately. -/
def chunksOf {α : Type} (k : Nat) (cs : List α) : List (List α) :=
  if k = 0 then [] else chunksOfAux k cs.length cs

/-- `n` bytes of `x` in little-endian order. -/
def leBytes : Nat → Nat → List Nat
  | 0, _ => []
  | n + 1, x => (x % 256) :: leBytes n (x / 256)

/-- Little-endian word value of a byte list. -/
def leWord (bs : List Nat) : Nat := bs.foldr (fun b acc => b + 256 * acc) 0

/-- MD5 padding: append `0x80`, zero bytes to 56 mod 64, then the bit length
as 8 little-endian bytes. -/
def md5Pad (msg : List Nat) : List Nat :=
  msg ++ 128 :: List.replicate ((119 - msg.length % 64) % 64) 0
      ++ leBytes 8 ((msg.length * 8) % 18446744073709551616)

/-- The four MD5 state registers. -/
structure MD5State where
  a : Nat
  b : Nat
  c : Nat
  d : Nat

/-- One of the 64 MD5 rounds, given the 16 message words `M`. -/
def md5Round (M : List Nat) (st : MD5State) (i : Nat) : MD5State :=
  let f :=
    if i < 16 then Nat.lor (Nat.land st.b st.c) (Nat.land (not32 st.b) st.d)
    else if i < 32 then Nat.lor (Nat.land st.d st.b) (Nat.land (not32 st.d) st.c)
    else if i < 48 then Nat.xor (Nat.xor st.b st.c) st.d
    else Nat.xor st.c (Nat.lor st.b (not32 st.d))
  let g :=
    if i < 16 then i
    else if i < 32 then (5 * i + 1) % 16
    else if i < 48 then (3 * i + 5) % 16
    else (7 * i) % 16
  let v := add32 (add32 (add32 f st.a) (md5K.getD i 0)) (M.getD g 0)
  ⟨st.d, add32 st.b (rotl32 v (md5S.getD i 0)), st.b, st.c⟩

/-- Process one 64-byte block. -/
def md5Block (st : MD5State) (block : List Nat) : MD5State :=
  let M := (chunksOf 4 block).map leWord
  let r := (List.range 64).foldl (md5Round M) st
  ⟨add32 st.a r.a, add32 st.b r.b, add32 st.c r.c, add32 st.d r.d⟩

/-- MD5 digest (16 raw bytes) of a byte list, as computed by
`hashlib.md5(data).digest()`. -/
def md5 (msg : List Nat) : List Nat :=
  let st := (chunksOf 64 (md5Pad msg)).foldl md5Block
    ⟨1732584193, 4023233417, 2562383102, 271733878⟩
  leBytes 4 st.a ++ leBytes 4 st.b ++ leBytes 4 st.c ++ leBytes 4 st.d

/-- Lowercase hex digit for `n < 16`. -/
def hexDigit (n : Nat) : Char :=
  if n < 10 then Char.ofNat (48 + n) else Char.ofNat (87 + n)

/-- Lowercase hex string of a byte list, as `hashlib`'s `.hexdigest()`. -/
def hexOfBytes (bs : List Nat) : String :=
  String.mk ((bs.map (fun b => [hexDigit (b / 16 % 16), hexDigit (b % 16)])).flatten)

/-- Default chunk size of `get_local_etag` (8 MiB). -/
def defaultChunkSize : Nat := 8 * 1024 * 1024

/-- `get_local_etag` on the bytes of a readable file (source lines 13–31):
hash each `chunk_size`-byte chunk; no chunk (empty file) gives `None`; exactly
one chunk gives the hex digest of a second full read; several chunks give
`hex(md5(concat(digests))) ++ "-" ++ count`. -/
def getLocalEtagBytes (cs : List Nat) (chunk_size : Nat) : Option String :=
  if (chunksOf chunk_size cs).map md5 = [] then
    none
  else if ((chunksOf chunk_size cs).map md5).length = 1 then
    some (hexOfBytes (md5 cs))
  else
    some (hexOfBytes (md5 ((chunksOf chunk_size cs).map md5).flatten) ++ "-"
      ++ toString ((chunksOf chunk_size cs).map md5).length)

/-- Errors that abort the run: a failed file read (`OSError` from `open`/
`read`) or a failed remote listing (`CalledProcessError`). -/
inductive SyncError where
  | readError
  | remoteError
deriving DecidableEq, Repr

/-- `get_local_etag` on a path: a path that cannot be read (`none`) raises,
modelled as `Except.error`. -/
def get_local_etag (r : Option (List Nat)) (chunk_size : Nat) :
    Except SyncError (Option String) :=
  match r with
  | none => .error .readError
  | some cs => .ok (getLocalEtagBytes cs chunk_size)

/-- Python `dict` lookup for a dict built by inserting the pairs in list
order: the last binding of a key wins. -/
def dictGet : List (String × String) → String → Option String
  | [], _ => none
  | kv :: rest, k =>
    match dictGet rest k with
    | some v => some v
    | none => if kv.1 = k then some kv.2 else none

/-- Python `s.strip('"')`: remove every leading and trailing `"`. -/
def stripQuotes (s : String) : String :=
  String.mk (((s.data.dropWhile (fun c => c = '"')).reverse.dropWhile
    (fun c => c = '"')).reverse)

/-- `get_remote_etags` (source lines 34–44): the `aws s3api list-objects-v2`
call either fails (`none`, `subprocess.run(check=True)` raises) or returns
`(key, etag)` pairs; etags are quote-stripped and collected into a dict. -/
def get_remote_etags (fetch : Option (List (String × String))) :
    Except SyncError (String → Option String) :=
  match fetch with
  | none => .error .remoteError
  | some objs =>
    .ok (fun k => dictGet (objs.map (fun kv => (kv.1, stripQuotes kv.2))) k)

/-- Python `key.lstrip("/")`: drop every leading `/`. -/
def lstripSlashes (s : String) : String :=
  String.mk (s.data.dropWhile (fun c => c = '/'))

/-- Destination key of a relative key (source lines 114–115):
`f"{pre}/{rel_key}" if pre else rel_key`, then `lstrip("/")`. -/
def mkKey (pre rel : String) : String :=
  lstripSlashes (if pre ≠ "" then pre ++ "/" ++ rel else rel)

/-- The per-file loop of `plan_uploads` (source lines 113–121) over local
entries `(rel_key, read result)`, given the remote etag dict `m`: schedule
`(key, path)` iff the local etag differs from `m.get(key)`; a read error
propagates and aborts the loop. -/
def planFiles (m : String → Option String) (pre : String) :
    List (String × Option (List Nat)) →
      Except SyncError (List (String × Option (List Nat)))
  | [] => .ok []
  | (rel_key, r) :: rest =>
    match get_local_etag r defaultChunkSize with
    | .error e => .error e
    | .ok local_etag =>
      match planFiles m pre rest with
      | .error e => .error e
      | .ok plan =>
        .ok (if local_etag ≠ m (mkKey pre rel_key)
             then (mkKey pre rel_key, r) :: plan else plan)

/-- `plan_uploads` (source lines 110–122): fetch the remote etags first, then
run the per-file loop. -/
def plan_uploads (files : List (String × Option (List Nat)))
    (fetch : Option (List (String × String))) (pre : String) :
    Except SyncError (List (String × Option (List Nat))) :=
  match get_remote_etags fetch with
  | .error e => .error e
  | .ok remote_etags => planFiles remote_etags pre files

/-- A task as submitted to the executor by `sync` (source lines 143–147):
key, path, 1-based index and total count. -/
structure UploadTask where
  key : String
  src : Option (List Nat)
  idx : Nat
  total : Nat
deriving DecidableEq, Repr

/-- The planning-and-submission part of `sync` (source lines 134–147): on a
successful plan, submit one task per planned entry with `i + 1` as index and
the plan size as total; an exception from planning propagates. -/
def sync (files : List (String × Option (List Nat)))
    (fetch : Option (List (String × String))) (pre : String) :
    Except SyncError (List UploadTask) :=
  match plan_uploads files fetch pre with
  | .error e => .error e
  | .ok to_upload =>
    .ok (to_upload.enum.map (fun p => ⟨p.2.1, p.2.2, p.1 + 1, to_upload.length⟩))

/-- Observable effects of one `upload_file` call: writes issued to the object
store and progress lines printed. -/
structure UploadEffects where
  puts : List (String × String × Option (List Nat))
  reports : List String
deriving DecidableEq, Repr

/-- `upload_file` (source lines 47–66): builds the `put-object` command but
the `subprocess.run` call is commented out (lines 63–64), so no store write
is ever issued — for any `dryrun` value — while the progress line
`[idx/total] Uploaded key` is still printed. -/
def upload_file (_bucket key : String) (_path : Option (List Nat))
    (idx total : Nat) (_acl : Option String) (_dryrun _verbose : Bool) :
    UploadEffects :=
  { puts := []
    reports := ["[" ++ toString idx ++ "/" ++ toString total ++ "] Uploaded " ++ key] }

/-- Modelled from the spec (the Object Store itself is an external
collaborator, §6): `putObject` stores the bytes, and the store's content
identity for a single-`putObject` object is the simple fingerprint — the
hex-encoded content hash of the whole object (§4.1). -/
def putObjectEtag (cs : List Nat) : String := hexOfBytes (md5 cs)

/-- Modelled from the spec: effect of executing one upload task on the remote
etag mapping — the task's key now maps to the stored object's content
identity; a task whose source cannot be read stores nothing. -/
def putStore (m : String → Option String) (t : String × Option (List Nat)) :
    String → Option String :=
  fun q =>
    if q = t.1 then
      match t.2 with
      | some cs => some (putObjectEtag cs)
      | none => m q
    else m q

/-- Modelled from the spec: remote etag mapping after executing a whole plan. -/
def applyPlan (m : String → Option String)
    (plan : List (String × Option (List Nat))) : String → Option String :=
  plan.foldl putStore m

/-- Parse the items of an `fnmatch` character class after the opening `[`
(and after any leading `!` / first-position literal `]`): a `]` closes the
class, `a-b` is a range, `-` just before the closing `]` is literal. `none`
when no closing `]` exists, in which case `[` is a literal. -/
def parseClassItems : List Char → Option (List (Char × Char) × List Char)
  | [] => none
  | ']' :: rest => some ([], rest)
  | c :: '-' :: ']' :: rest => some ([(c, c), ('-', '-')], rest)
  | c :: '-' :: d :: rest =>
    (parseClassItems rest).map (fun p => ((c, d) :: p.1, p.2))
  | c :: rest =>
    (parseClassItems rest).map (fun p => ((c, c) :: p.1, p.2))

/-- Parse a full `fnmatch` character class after the opening `[`: a leading
`!` negates, a `]` in first position is a literal member. -/
def parseClass (ps : List Char) :
    Option (Bool × List (Char × Char) × List Char) :=
  match ps with
  | '!' :: ']' :: rest => (parseClassItems rest).map (fun p => (true, (']', ']') :: p.1, p.2))
  | '!' :: rest => (parseClassItems rest).map (fun p => (true, p.1, p.2))
  | ']' :: rest => (parseClassItems rest).map (fun p => (false, (']', ']') :: p.1, p.2))
  | rest => (parseClassItems rest).map (fun p => (false, p.1, p.2))

/-- Does character `c` fall in the (possibly negated) class items? Ranges
compare by code point, as the regex `fnmatch.translate` produces. -/
def matchClass (neg : Bool) (items : List (Char × Char)) (c : Char) : Bool :=
  let m := items.any (fun p => decide (p.1 ≤ c) && decide (c ≤ p.2))
  if neg then !m else m

/-- Shell-style glob matching of a whole string, as Python's
`fnmatch.fnmatch` on a case-sensitive filesystem: `*` matches any run of
characters (including `/`), `?` any single character, `[...]` a class. -/
def globMatch : List Char → List Char → Bool
  | [], s => s.isEmpty
  | '*' :: ps, s =>
    globMatch ps s ||
      (match s with
       | [] => false
       | _ :: s2 => globMatch ('*' :: ps) s2)
  | '?' :: ps, s =>
    (match s with
     | [] => false
     | _ :: s2 => globMatch ps s2)
  | '[' :: ps, s =>
    (match parseClass ps with
     | some (neg, items, ps2) =>
       match s with
       | [] => false
       | c :: s2 => matchClass neg items c && globMatch ps2 s2
     | none =>
       match s with
       | [] => false
       | c :: s2 => (c == '[') && globMatch ps s2)
  | p :: ps, s =>
    (match s with
     | [] => false
     | c :: s2 => (p == c) && globMatch ps s2)
termination_by ps s => (s.length, ps.length)

/-- `fnmatch.fnmatch(name, pat)`. -/
def fnmatch (name pat : String) : Bool := globMatch pat.data name.data

/-- `is_excluded` (source lines 81–85): does any exclude pattern match the
relative key? -/
def is_excluded (rel_key : String) (excludes : List String) : Bool :=
  excludes.any (fun pat => fnmatch rel_key pat)

/-- A directory of the local tree: named subdirectories and file names. -/
inductive FSDir where
  | node (subdirs : List (String × FSDir)) (files : List String)

/-- Relative key of entry `n` inside the directory of relative key `r`, with
forward slashes, as `str(Path(root, n).relative_to(source_path))`. -/
def relJoin (r n : String) : String := if r = "" then n else r ++ "/" ++ n

/-- The `os.walk` loop of `discover_files` (source lines 95–106): at each
directory, prune subdirectories whose relative key is excluded (in-place
`dirs[:] = ...`, so `os.walk` never descends into them), emit the relative
keys of non-excluded files, then walk the kept subdirectories in order. -/
def walkDir (excludes : List String) (rel : String) : FSDir → List String
  | .node subdirs files =>
    let kept := subdirs.filter (fun d => !is_excluded (relJoin rel d.1) excludes)
    files.filterMap (fun n =>
        if is_excluded (relJoin rel n) excludes then none else some (relJoin rel n))
      ++ (kept.attach.map (fun d => walkDir excludes (relJoin rel d.1.1) d.1.2)).flatten
termination_by t => sizeOf t
decreasing_by
  have hmem : d.1 ∈ subdirs := List.mem_of_mem_filter d.2
  have h1 : sizeOf d.1 < sizeOf subdirs := List.sizeOf_lt_of_mem hmem
  have h2 : sizeOf d.1.2 < sizeOf d.1 := by
    obtain ⟨x, y⟩ := d.1
    simp
  simp
  omega

/-- The source tree handed to `discover_files`: a single file or a directory. -/
inductive FSSource where
  | file (name : String)
  | dir (tree : FSDir)

/-- `discover_files` (source lines 88–107), yielding the relative keys of the
discovered files. -/
def discover_files (src : FSSource) (excludes : List String) : List String :=
  match src with
  | .file name => if is_excluded name excludes then [] else [name]
  | .dir t => walkDir excludes "" t

/-- Specification-side description of the walk: a key is yielded exactly when
it names a non-excluded file reachable through a chain of non-excluded
directories. -/
inductive Yields (excludes : List String) : String → FSDir → String → Prop where
  | file {rel subdirs files n} : n ∈ files →
      is_excluded (relJoin rel n) excludes = false →
      Yields excludes rel (.node subdirs files) (relJoin rel n)
  | sub {rel subdirs files d t k} : (d, t) ∈ subdirs →
      is_excluded (relJoin rel d) excludes = false →
      Yields excludes (relJoin rel d) t k →
      Yields excludes rel (.node subdirs files) k

lemma sizeOf_lt_of_subdir (files : List String) {subdirs : List (String × FSDir)}
    {d : String} {t' : FSDir} (h : (d, t') ∈ subdirs) :
    sizeOf t' < sizeOf (FSDir.node subdirs files) := by
  have h1 := List.sizeOf_lt_of_mem h
  have h2 : sizeOf (d, t') = 1 + sizeOf d + sizeOf t' := rfl
  simp only [FSDir.node.sizeOf_spec]
  omega

lemma walkDir_node (excludes : List String) (rel : String)
    (subdirs : List (String × FSDir)) (files : List String) :
    walkDir excludes rel (.node subdirs files)
      = files.filterMap (fun n =>
          if is_excluded (relJoin rel n) excludes then none
          else some (relJoin rel n))
        ++ ((subdirs.filter
              (fun d => !is_excluded (relJoin rel d.1) excludes)).attach.map
            (fun d => walkDir excludes (relJoin rel d.1.1) d.1.2)).flatten := by
  conv_lhs => unfold walkDir

lemma mem_flatten_attach {β γ : Type} (l : List β) (F : {x // x ∈ l} → List γ)
    (k : γ) :
    k ∈ (l.attach.map F).flatten ↔ ∃ x : {x // x ∈ l}, k ∈ F x := by
  simp only [List.mem_flatten, List.mem_map]
  constructor
  · rintro ⟨l', ⟨a, _, rfl⟩, hk⟩
    exact ⟨a, hk⟩
  · rintro ⟨x, hk⟩
    exact ⟨F x, ⟨x, List.mem_attach _ _, rfl⟩, hk⟩

/-- The remote etag dict produced from a successful listing. -/
def remoteLookup (objs : List (String × String)) : String → Option String :=
  fun k => dictGet (objs.map (fun kv => (kv.1, stripQuotes kv.2))) k

/-- The upload plan, written as a filter: exactly the entries whose local
etag differs from the remote one under their destination key. -/
def planOf (m : String → Option String) (pre : String)
    (files : List (String × List Nat)) : List (String × Option (List Nat)) :=
  files.filterMap (fun f =>
    if getLocalEtagBytes f.2 defaultChunkSize ≠ m (mkKey pre f.1)
    then some (mkKey pre f.1, some f.2) else none)

lemma chunkSplit_eq {α : Type} : ∀ (cs : List α) (n : Nat),
    chunkSplit n cs = (cs.take n, cs.drop n)
  | [], n => by simp [chunkSplit]
  | c :: cs, n => by
    unfold chunkSplit
    by_cases h : n = 0
    · simp [h]
    · obtain ⟨m, rfl⟩ : ∃ m, n = m + 1 := ⟨n - 1, by omega⟩
      simp [h, chunkSplit_eq cs m]

lemma chunksOfAux_congr {α : Type} {k : Nat} (hk : k ≠ 0) :
    ∀ (fuel1 fuel2 : Nat) (cs : List α), cs.length ≤ fuel1 → cs.length ≤ fuel2 →
      chunksOfAux k fuel1 cs = chunksOfAux k fuel2 cs := by
  intro fuel1
  induction fuel1 with
  | zero =>
    intro fuel2 cs h1 _
    have : cs = [] := by
      cases cs with
      | nil => rfl
      | cons c cs => simp at h1
    subst this
    cases fuel2 <;> rfl
  | succ f ih =>
    intro fuel2 cs h1 h2
    cases cs with
    | nil => cases fuel2 <;> rfl
    | cons c cs' =>
      obtain ⟨f2, rfl⟩ : ∃ f2, fuel2 = f2 + 1 := by
        cases fuel2 with
        | zero => simp at h2
        | succ f2 => exact ⟨f2, rfl⟩
      show (chunkSplit k (c :: cs')).1 :: chunksOfAux k f (chunkSplit k (c :: cs')).2
          = (chunkSplit k (c :: cs')).1 :: chunksOfAux k f2 (chunkSplit k (c :: cs')).2
      rw [chunkSplit_eq]
      dsimp only
      have hL : (c :: cs').length = cs'.length + 1 := rfl
      have hd : ((c :: cs').drop k).length = (c :: cs').length - k := by
        rw [List.length_drop]
      refine congrArg _ (ih f2 _ ?_ ?_) <;> omega

lemma chunksOf_nil {α : Type} (k : Nat) : chunksOf k ([] : List α) = [] := by
  unfold chunksOf
  rcases Nat.eq_zero_or_pos k with h | h
  · rw [if_pos h]
  · rw [if_neg (by omega)]
    rfl

lemma chunksOf_cons {α : Type} {k : Nat} (hk : k ≠ 0) (c : α) (cs : List α) :
    chunksOf k (c :: cs) = (c :: cs).take k :: chunksOf k ((c :: cs).drop k) := by
  unfold chunksOf
  rw [if_neg hk, if_neg hk]
  show (chunkSplit k (c :: cs)).1 :: chunksOfAux k cs.length (chunkSplit k (c :: cs)).2
      = (c :: cs).take k :: chunksOfAux k ((c :: cs).drop k).length ((c :: cs).drop k)
  rw [chunkSplit_eq]
  dsimp only
  have hL : (c :: cs).length = cs.length + 1 := rfl
  have hd : ((c :: cs).drop k).length = (c :: cs).length - k := by
    rw [List.length_drop]
  refine congrArg _ (chunksOfAux_congr hk _ _ _ ?_ ?_) <;> omega

lemma chunksOf_eq_single {α : Type} {k : Nat} {cs : List α} (h1 : cs ≠ [])
    (h2 : cs.length ≤ k) : chunksOf k cs = [cs] := by
  cases cs with
  | nil => exact absurd rfl h1
  | cons c cs' =>
    have hk : k ≠ 0 := by
      intro h
      subst h
      simp at h2
    rw [chunksOf_cons hk]
    have hdrop : (c :: cs').drop k = [] := List.drop_eq_nil_of_le h2
    rw [List.take_of_length_le h2, hdrop, chunksOf_nil]

lemma chunksOf_length_gt_one {α : Type} {k : Nat} {cs : List α} (hk : 0 < k)
    (h : k < cs.length) : 1 < (chunksOf k cs).length := by
  cases cs with
  | nil => simp at h
  | cons c cs' =>
    rw [chunksOf_cons (Nat.pos_iff_ne_zero.mp hk)]
    have hL : (c :: cs').length = cs'.length + 1 := rfl
    have hdrop : (c :: cs').drop k ≠ [] := by
      rw [← List.length_pos, List.length_drop]
      omega
    cases hd : (c :: cs').drop k with
    | nil => exact absurd hd hdrop
    | cons d ds =>
      rw [chunksOf_cons (Nat.pos_iff_ne_zero.mp hk)]
      simp

/-- A non-empty file read with a positive chunk size always has a `some`
fingerprint. -/
lemma getLocalEtagBytes_ne_none {cs : List Nat} {k : Nat} (hcs : cs ≠ [])
    (hk : 0 < k) : getLocalEtagBytes cs k ≠ none := by
  have hch : chunksOf k cs ≠ [] := by
    cases cs with
    | nil => exact absurd rfl hcs
    | cons c cs' =>
      rw [chunksOf_cons (Nat.pos_iff_ne_zero.mp hk)]
      simp
  have h1 : (chunksOf k cs).map md5 ≠ [] := by
    simpa using hch
  unfold getLocalEtagBytes
  rw [if_neg h1]
  split <;> simp

/-- A non-empty file that fits in one chunk gets the simple fingerprint:
the hex digest of the whole content. -/
lemma getLocalEtagBytes_single {cs : List Nat} {k : Nat} (h1 : cs ≠ [])
    (h2 : cs.length ≤ k) : getLocalEtagBytes cs k = some (hexOfBytes (md5 cs)) := by
  unfold getLocalEtagBytes
  rw [chunksOf_eq_single h1 h2]
  simp

lemma getLocalEtagBytes_nil (k : Nat) : getLocalEtagBytes [] k = none := by
  unfold getLocalEtagBytes
  rw [chunksOf_nil]
  simp

lemma get_remote_etags_some (objs : List (String × String)) :
    get_remote_etags (some objs) = .ok (remoteLookup objs) := rfl

/-- Characterization of the planning loop on fully readable inputs: it
succeeds and schedules exactly the mismatching entries, with their
destination keys, in input order. -/
lemma planFiles_eq_planOf (m : String → Option String) (pre : String) :
    ∀ files : List (String × List Nat),
      planFiles m pre (files.map (fun f => (f.1, some f.2))) = .ok (planOf m pre files)
  | [] => rfl
  | f :: rest => by
    have ih := planFiles_eq_planOf m pre rest
    simp only [List.map_cons, planFiles, get_local_etag, ih, planOf, List.filterMap_cons]
    by_cases h : getLocalEtagBytes f.2 defaultChunkSize ≠ m (mkKey pre f.1)
    · rw [if_pos h, if_pos h]
    · rw [if_neg h, if_neg h]

/-- Same statement through `plan_uploads`. -/
lemma plan_uploads_eq_planOf (files : List (String × List Nat))
    (objs : List (String × String)) (pre : String) :
    plan_uploads (files.map (fun f => (f.1, some f.2))) (some objs) pre
      = .ok (planOf (remoteLookup objs) pre files) := by
  unfold plan_uploads
  rw [get_remote_etags_some]
  exact planFiles_eq_planOf _ _ _

/-- C1, counterexample to the claim as stated: a zero-byte local file whose
destination key is absent remotely is NOT included in the plan (its `None`
fingerprint equals the missing-entry lookup), although the claim says every
local file whose key is missing remotely is included. -/
theorem c1_counterexample :
    plan_uploads [("z", some ([] : List Nat))] (some []) "" = .ok []
      ∧ remoteLookup [] "z" = none := ⟨rfl, rfl⟩

/-- C1 (amended): the planner succeeds on readable inputs and includes an
upload task for an entry iff its local fingerprint differs from the remote
lookup of its destination key; a key absent remotely yields `none`, which
mismatches every non-empty file's fingerprint but equals the empty-file
fingerprint, so only non-empty files with remotely-missing keys are always
included. -/
theorem c1_plan_iff_mismatch (files : List (String × List Nat))
    (objs : List (String × String)) (pre : String) (cs : List Nat)
    (hcs : cs ≠ []) :
    plan_uploads (files.map (fun f => (f.1, some f.2))) (some objs) pre
      = .ok (planOf (remoteLookup objs) pre files)
      ∧ getLocalEtagBytes cs defaultChunkSize ≠ none :=
  ⟨plan_uploads_eq_planOf files objs pre,
   getLocalEtagBytes_ne_none hcs (by norm_num [defaultChunkSize])⟩

/-- C1 witness: a concrete instance of the amended statement. -/
theorem c1_witness :
    plan_uploads [("a", some ([1] : List Nat)), ("b", some [])] (some []) ""
      = .ok (planOf (remoteLookup []) "" [("a", [1]), ("b", [])])
      ∧ getLocalEtagBytes [1] defaultChunkSize ≠ none :=
  c1_plan_iff_mismatch [("a", [1]), ("b", [])] [] "" [1] (by simp)

/-- C3: a file spanning more than one chunk gets the composite fingerprint —
hex digest of the concatenated raw per-chunk digests, a dash, and the chunk
count — while a non-empty file read in exactly one chunk gets the hex digest
of the whole content. -/
theorem c3_fingerprint_structure (cs : List Nat) (k : Nat) (hk : 0 < k) :
    (k < cs.length →
      1 < (chunksOf k cs).length ∧
      getLocalEtagBytes cs k =
        some (hexOfBytes (md5 ((chunksOf k cs).map md5).flatten) ++ "-"
          ++ toString ((chunksOf k cs).length))) ∧
    (cs ≠ [] → cs.length ≤ k →
      getLocalEtagBytes cs k = some (hexOfBytes (md5 cs))) := by
  constructor
  · intro h
    have hgt := chunksOf_length_gt_one hk h
    refine ⟨hgt, ?_⟩
    unfold getLocalEtagBytes
    have hne : (chunksOf k cs).map md5 ≠ [] := by
      simp only [ne_eq, List.map_eq_nil_iff, ← List.length_pos]
      omega
    have hlen : ((chunksOf k cs).map md5).length ≠ 1 := by
      rw [List.length_map]
      omega
    rw [if_neg hne, if_neg hlen, List.length_map]
  · intro h1 h2
    exact getLocalEtagBytes_single h1 h2

/-- C3 witness: bytes `[0, 1, 2]` with chunk size 2 span two chunks. -/
theorem c3_witness :
    1 < (chunksOf 2 ([0, 1, 2] : List Nat)).length ∧
    getLocalEtagBytes [0, 1, 2] 2 =
      some (hexOfBytes (md5 ((chunksOf 2 ([0, 1, 2] : List Nat)).map md5).flatten) ++ "-"
        ++ toString ((chunksOf 2 ([0, 1, 2] : List Nat)).length)) :=
  (c3_fingerprint_structure [0, 1, 2] 2 (by norm_num)).1 (by norm_num)

/-- C4: a zero-byte file has the sentinel fingerprint `None`, distinct from
the fingerprint of every file with at least one byte. -/
theorem c4_empty_sentinel (k k' : Nat) (cs : List Nat)
    (hk' : 0 < k') (hcs : cs ≠ []) :
    getLocalEtagBytes [] k = none
      ∧ getLocalEtagBytes cs k' ≠ getLocalEtagBytes [] k := by
  have he := getLocalEtagBytes_nil k
  exact ⟨he, by rw [he]; exact getLocalEtagBytes_ne_none hcs hk'⟩

/-- C4 witness. -/
theorem c4_witness :
    getLocalEtagBytes [] 1 = none
      ∧ getLocalEtagBytes [7] 1 ≠ getLocalEtagBytes [] 1 :=
  c4_empty_sentinel 1 1 [7] (by norm_num) (by simp)

/-- A read failure anywhere in the file list makes the whole planning loop
raise: every earlier (readable) file is processed, then the error
propagates, and no plan is produced. -/
lemma planFiles_readError (m : String → Option String) (p : String) :
    ∀ (pre : List (String × Option (List Nat))) (x : String)
      (post : List (String × Option (List Nat))),
      (∀ f ∈ pre, f.2 ≠ none) →
      planFiles m p (pre ++ (x, none) :: post) = .error .readError
  | [], _, _, _ => rfl
  | f :: pre', x, post, h => by
    obtain ⟨cs, hcs⟩ : ∃ cs, f.2 = some cs := by
      cases hf : f.2 with
      | none => exact absurd hf (h f (by simp))
      | some cs => exact ⟨cs, rfl⟩
    have ih := planFiles_readError m p pre' x post (fun g hg => h g (by simp [hg]))
    obtain ⟨rel, r⟩ := f
    simp only at hcs
    subst hcs
    simp only [List.cons_append, planFiles, get_local_etag, List.append_eq, ih]

/-- C5, counterexample to the claim as stated: with a first unreadable file
and a second readable one that needs uploading, planning aborts with the
read error instead of recording it per-file — the sibling (which alone would
be planned) is never processed. -/
theorem c5_counterexample :
    plan_uploads [("a", none), ("b", some [1, 2])] (some []) "" = .error .readError
      ∧ plan_uploads [("b", some [1, 2])] (some []) "" = .ok [("b", some [1, 2])] :=
  ⟨rfl, rfl⟩

/-- C5 (amended): if any file cannot be read during planning, the read error
propagates and aborts the whole sync — no plan is produced, later files are
not processed, and there is no per-file recording. -/
theorem c5_read_error_aborts (pre : List (String × Option (List Nat)))
    (x : String) (post : List (String × Option (List Nat)))
    (objs : List (String × String)) (p : String)
    (h : ∀ f ∈ pre, f.2 ≠ none) :
    plan_uploads (pre ++ (x, none) :: post) (some objs) p = .error .readError := by
  unfold plan_uploads
  rw [get_remote_etags_some]
  exact planFiles_readError _ p pre x post h

/-- C5 witness. -/
theorem c5_witness :
    plan_uploads [("a", some []), ("b", none)] (some []) "" = .error .readError :=
  c5_read_error_aborts [("a", some [])] "b" [] [] "" (by simp)

/-- C2: `upload_file` issues no write to the object store whether dry-run is
on or off (the `put-object` invocation is commented out in the source), yet
it still reports the task as uploaded. -/
theorem c2_upload_never_writes (bucket key : String) (path : Option (List Nat))
    (idx total : Nat) (acl : Option String) (verbose : Bool) :
    (upload_file bucket key path idx total acl false verbose).puts = []
      ∧ (upload_file bucket key path idx total acl true verbose).puts = []
      ∧ (upload_file bucket key path idx total acl false verbose).reports
          = ["[" ++ toString idx ++ "/" ++ toString total ++ "] Uploaded " ++ key] :=
  ⟨rfl, rfl, rfl⟩

/-- C8: on readable inputs `sync` submits exactly the planned entries, in
plan order, each task carrying the destination key
(`pre ++ "/" ++ rel` when a prefix is set, else `rel`, with leading slashes
stripped), the 1-based position as index, and the plan size as total. -/
theorem c8_keys_and_indices (files : List (String × List Nat))
    (objs : List (String × String)) (p : String) :
    sync (files.map (fun f => (f.1, some f.2))) (some objs) p
      = .ok (((planOf (remoteLookup objs) p files).enum).map
          (fun q => ⟨q.2.1, q.2.2, q.1 + 1, (planOf (remoteLookup objs) p files).length⟩))
      ∧ ∀ rel : String,
          mkKey p rel = lstripSlashes (if p ≠ "" then p ++ "/" ++ rel else rel) := by
  constructor
  · unfold sync
    rw [plan_uploads_eq_planOf]
  · intro rel
    rfl

/-- Every task in a successful plan has a local etag that was computed
without error and differs from the remote etag under the task's key. -/
lemma planFiles_ok_mem (m : String → Option String) (p : String) :
    ∀ (files plan : List (String × Option (List Nat))),
      planFiles m p files = .ok plan →
      ∀ t ∈ plan, ∃ e, get_local_etag t.2 defaultChunkSize = .ok e ∧ e ≠ m t.1
  | [], plan, hplan => by
    simp only [planFiles] at hplan
    cases hplan
    intro t ht
    simp at ht
  | (rel, r) :: rest, plan, hplan => by
    intro t ht
    simp only [planFiles] at hplan
    cases hle : get_local_etag r defaultChunkSize with
    | error e => rw [hle] at hplan; cases hplan
    | ok le =>
      rw [hle] at hplan
      cases hrest : planFiles m p rest with
      | error e => rw [hrest] at hplan; cases hplan
      | ok planR =>
        rw [hrest] at hplan
        cases hplan
        by_cases hcond : le ≠ m (mkKey p rel)
        · rw [if_pos hcond] at ht
          rcases List.mem_cons.mp ht with h1 | h2
          · subst h1
            exact ⟨le, hle, hcond⟩
          · exact planFiles_ok_mem m p rest planR hrest t h2
        · rw [if_neg hcond] at ht
          exact planFiles_ok_mem m p rest planR hrest t ht

/-- C10 (implicit behavior): a zero-byte local file whose destination key is
absent from the remote state is never scheduled: its `None` fingerprint
equals the missing-entry lookup, so no plan of any input contains such a
task. -/
theorem c10_empty_absent_excluded (files : List (String × Option (List Nat)))
    (objs : List (String × String)) (p k : String)
    (plan : List (String × Option (List Nat)))
    (hplan : plan_uploads files (some objs) p = .ok plan)
    (habsent : remoteLookup objs k = none) :
    (k, (some [] : Option (List Nat))) ∉ plan := by
  intro hmem
  unfold plan_uploads at hplan
  rw [get_remote_etags_some] at hplan
  obtain ⟨e, he, hne⟩ := planFiles_ok_mem _ _ _ _ hplan _ hmem
  have hnone : get_local_etag (some ([] : List Nat)) defaultChunkSize = .ok none := by
    simp [get_local_etag, getLocalEtagBytes_nil]
  rw [hnone] at he
  cases he
  exact hne habsent.symm

/-- C10 witness. -/
theorem c10_witness :
    (("a", (some [] : Option (List Nat))) ∉ ([] : List (String × Option (List Nat)))) :=
  c10_empty_absent_excluded [("a", some [])] [] "" "a" [] rfl rfl

/-- C7: a failed remote listing aborts the whole sync before any upload is
planned or submitted: both the planner and `sync` propagate the error and
produce no task. -/
theorem c7_remote_failure_aborts (files : List (String × Option (List Nat)))
    (pre : String) :
    plan_uploads files none pre = .error .remoteError
      ∧ sync files none pre = .error .remoteError := ⟨rfl, rfl⟩

/-- C6: the walker yields exactly the keys of non-excluded files reachable
through chains of non-excluded directories: an excluded directory is pruned
with all its descendants, an excluded file is omitted. -/
theorem c6_walk_iff_yields (excludes : List String) (rel : String) (t : FSDir)
    (k : String) : k ∈ walkDir excludes rel t ↔ Yields excludes rel t k := by
  suffices h : ∀ (n : Nat) (t : FSDir), sizeOf t ≤ n → ∀ rel k,
      (k ∈ walkDir excludes rel t ↔ Yields excludes rel t k) from
    h (sizeOf t) t le_rfl rel k
  intro n
  induction n with
  | zero =>
    intro t ht
    obtain ⟨subdirs, files⟩ := t
    simp only [FSDir.node.sizeOf_spec] at ht
    omega
  | succ n ih =>
    intro t ht rel k
    obtain ⟨subdirs, files⟩ := t
    rw [walkDir_node, List.mem_append, mem_flatten_attach]
    constructor
    · rintro (hfile | hsub)
      · rcases List.mem_filterMap.mp hfile with ⟨a, ha, hif⟩
        by_cases he : is_excluded (relJoin rel a) excludes
        · rw [if_pos he] at hif
          cases hif
        · rw [if_neg he] at hif
          cases hif
          exact Yields.file ha (by simpa using he)
      · rcases hsub with ⟨⟨⟨d, t'⟩, hx⟩, hk⟩
        rcases List.mem_filter.mp hx with ⟨hxsub, hxcond⟩
        have hxex : is_excluded (relJoin rel d) excludes = false := by
          simpa using hxcond
        have hsizet : sizeOf t' ≤ n := by
          have := sizeOf_lt_of_subdir files hxsub
          omega
        exact Yields.sub hxsub hxex ((ih t' hsizet _ k).mp hk)
    · intro hy
      cases hy with
      | file hn hex =>
        left
        exact List.mem_filterMap.mpr ⟨_, hn, by rw [if_neg (by simp [hex])]⟩
      | sub hsub hex hy' =>
        right
        rename_i d t'
        have hmem : (d, t') ∈ subdirs.filter
            (fun x => !is_excluded (relJoin rel x.1) excludes) :=
          List.mem_filter.mpr ⟨hsub, by simp [hex]⟩
        have hsizet := sizeOf_lt_of_subdir files hsub
        refine ⟨⟨(d, t'), hmem⟩, ?_⟩
        exact (ih t' (by omega) (relJoin rel d) k).mpr hy'


lemma planOf_cons (m : String → Option String) (p : String) (f : String × List Nat)
    (rest : List (String × List Nat)) :
    planOf m p (f :: rest)
      = if getLocalEtagBytes f.2 defaultChunkSize ≠ m (mkKey p f.1)
        then (mkKey p f.1, some f.2) :: planOf m p rest
        else planOf m p rest := by
  unfold planOf
  rw [List.filterMap_cons]
  by_cases hc : getLocalEtagBytes f.2 defaultChunkSize ≠ m (mkKey p f.1)
  · rw [if_pos hc, if_pos hc]
  · rw [if_neg hc, if_neg hc]

/-- The plan only depends on the remote values at the destination keys of
the input entries. -/
lemma planOf_congr (p : String) {m1 m2 : String → Option String} :
    ∀ files : List (String × List Nat),
      (∀ f ∈ files, m1 (mkKey p f.1) = m2 (mkKey p f.1)) →
      planOf m1 p files = planOf m2 p files
  | [], _ => rfl
  | f :: rest, h => by
    rw [planOf_cons, planOf_cons, h f (List.mem_cons_self _ _),
      planOf_congr p rest (fun g hg => h g (List.mem_cons_of_mem _ hg))]

/-- Every planned task's key is the destination key of one of the input
entries, and its source is that entry's content. -/
lemma planOf_keys (m : String → Option String) (p : String)
    (files : List (String × List Nat)) (t : String × Option (List Nat))
    (ht : t ∈ planOf m p files) :
    ∃ f ∈ files, t.1 = mkKey p f.1 ∧ t.2 = some f.2 := by
  rcases List.mem_filterMap.mp ht with ⟨f, hf, hif⟩
  by_cases hc : getLocalEtagBytes f.2 defaultChunkSize ≠ m (mkKey p f.1)
  · rw [if_pos hc] at hif
    cases hif
    exact ⟨f, hf, rfl, rfl⟩
  · rw [if_neg hc] at hif
    cases hif

lemma applyPlan_cons (m : String → Option String) (t : String × Option (List Nat))
    (plan : List (String × Option (List Nat))) :
    applyPlan m (t :: plan) = applyPlan (putStore m t) plan := rfl

/-- A key no task writes to keeps its remote etag. -/
lemma applyPlan_not_mem :
    ∀ (plan : List (String × Option (List Nat))) (m : String → Option String)
      (q : String), (∀ t ∈ plan, q ≠ t.1) → applyPlan m plan q = m q
  | [], _, _, _ => rfl
  | t :: plan, m, q, h => by
    rw [applyPlan_cons,
      applyPlan_not_mem plan _ q (fun u hu => h u (List.mem_cons_of_mem _ hu))]
    unfold putStore
    rw [if_neg (h t (List.mem_cons_self _ _))]

/-- Executing a plan gives equal remote etags at any point where the initial
states agree. -/
lemma applyPlan_congr_point :
    ∀ (plan : List (String × Option (List Nat))) (m1 m2 : String → Option String)
      (q : String), m1 q = m2 q → applyPlan m1 plan q = applyPlan m2 plan q
  | [], _, _, _, h => h
  | t :: plan, m1, m2, q, h => by
    rw [applyPlan_cons, applyPlan_cons]
    apply applyPlan_congr_point plan _ _ q
    unfold putStore
    by_cases hq : q = t.1
    · rw [if_pos hq, if_pos hq]
      cases t.2 <;> simp [h]
    · rw [if_neg hq, if_neg hq]
      exact h

/-- C9, counterexample to the claim as stated: a zero-byte local file whose
key holds a stale remote etag is planned on the first run; after that upload
the remote etag is the store's content hash of the empty object — a string,
never equal to the local `None` fingerprint — so the second run plans it
again instead of producing an empty plan. -/
theorem c9_counterexample :
    planFiles (fun q => if q = "e" then some "stale" else none) "" [("e", some [])]
      = .ok [("e", some [])]
      ∧ planFiles
          (applyPlan (fun q => if q = "e" then some "stale" else none)
            [("e", some [])]) "" [("e", some [])]
        ≠ .ok [] := by
  have h2 : planFiles
      (applyPlan (fun q => if q = "e" then some "stale" else none)
        [("e", some [])]) "" [("e", some [])] = .ok [("e", some [])] := rfl
  refine ⟨rfl, ?_⟩
  rw [h2]
  simp

/-- C9 (amended): the second run plans nothing, provided every local file is
non-empty, fits in a single chunk, and destination keys are distinct — for
those files the store's post-upload etag (hex content hash) coincides with
the local fingerprint. Zero-byte or multi-chunk files break this. -/
theorem c9_idempotent_single_chunk (files : List (String × List Nat))
    (m : String → Option String) (p : String)
    (hnodup : (files.map (fun f => mkKey p f.1)).Nodup)
    (hsize : ∀ f ∈ files, f.2 ≠ [] ∧ f.2.length ≤ defaultChunkSize)
    (plan1 : List (String × Option (List Nat)))
    (h1 : planFiles m p (files.map (fun f => (f.1, some f.2))) = .ok plan1) :
    planFiles (applyPlan m plan1) p (files.map (fun f => (f.1, some f.2)))
      = .ok [] := by
  induction files generalizing m plan1 with
  | nil => rfl
  | cons f rest ih =>
    have hle : getLocalEtagBytes f.2 defaultChunkSize
        = some (hexOfBytes (md5 f.2)) :=
      getLocalEtagBytes_single (hsize f (List.mem_cons_self _ _)).1
        (hsize f (List.mem_cons_self _ _)).2
    rw [planFiles_eq_planOf] at h1
    injection h1 with h1
    subst h1
    rw [planFiles_eq_planOf]
    rw [List.map_cons, List.nodup_cons] at hnodup
    obtain ⟨hknotin, hnodupR⟩ := hnodup
    have hkeyR : ∀ t ∈ planOf m p rest, mkKey p f.1 ≠ t.1 := by
      intro t ht
      obtain ⟨g, hg, ht1, _⟩ := planOf_keys m p rest t ht
      rw [ht1]
      intro hcontra
      exact hknotin (hcontra ▸ List.mem_map.mpr ⟨g, hg, rfl⟩)
    have hrest0 : planOf (applyPlan m (planOf m p rest)) p rest = [] := by
      have hih := ih m hnodupR
        (fun g hg => hsize g (List.mem_cons_of_mem _ hg))
        (planOf m p rest) (planFiles_eq_planOf m p rest)
      rw [planFiles_eq_planOf] at hih
      injection hih
    by_cases hc : getLocalEtagBytes f.2 defaultChunkSize ≠ m (mkKey p f.1)
    · have hplan1 : planOf m p (f :: rest)
          = (mkKey p f.1, some f.2) :: planOf m p rest := by
        rw [planOf_cons, if_pos hc]
      rw [hplan1]
      have hm2key :
          applyPlan m ((mkKey p f.1, some f.2) :: planOf m p rest) (mkKey p f.1)
            = some (putObjectEtag f.2) := by
        rw [applyPlan_cons,
          applyPlan_not_mem (planOf m p rest) _ (mkKey p f.1) hkeyR]
        simp [putStore]
      have hagree : ∀ g ∈ rest,
          applyPlan m ((mkKey p f.1, some f.2) :: planOf m p rest) (mkKey p g.1)
            = applyPlan m (planOf m p rest) (mkKey p g.1) := by
        intro g hg
        rw [applyPlan_cons]
        apply applyPlan_congr_point
        simp only [putStore]
        rw [if_neg]
        intro hcontra
        exact hknotin (hcontra ▸ List.mem_map.mpr ⟨g, hg, rfl⟩)
      have hall :
          planOf (applyPlan m ((mkKey p f.1, some f.2) :: planOf m p rest)) p
            (f :: rest) = [] := by
        rw [planOf_cons, if_neg (by rw [hm2key, hle]; simp [putObjectEtag]),
          planOf_congr p rest hagree]
        exact hrest0
      rw [hall]
    · have hmkey : m (mkKey p f.1) = getLocalEtagBytes f.2 defaultChunkSize := by
        by_contra hne
        exact hc (fun h => hne h.symm)
      have hplan1 : planOf m p (f :: rest) = planOf m p rest := by
        rw [planOf_cons, if_neg hc]
      rw [hplan1]
      have hall :
          planOf (applyPlan m (planOf m p rest)) p (f :: rest) = [] := by
        rw [planOf_cons,
          applyPlan_not_mem (planOf m p rest) _ (mkKey p f.1) hkeyR,
          if_neg (by rw [hmkey]; simp)]
        exact hrest0
      rw [hall]

/-- C9 witness: one readable single-chunk file, empty initial remote state. -/
theorem c9_witness :
    planFiles (applyPlan (fun _ => none) [("a", some [1])]) ""
      ([("a", [1])].map (fun f => (f.1, some f.2))) = .ok [] :=
  c9_idempotent_single_chunk [("a", [1])] (fun _ => none) "" (by simp)
    (by
      intro f hf
      simp only [List.mem_singleton] at hf
      subst hf
      exact ⟨by simp, by norm_num [defaultChunkSize]⟩)
    [("a", some [1])] rfl
